import Mathlib

/-!
# EMIF daughtercard DMA transfer example (`emif_dc_dma.c`)

A shallow embedding of `main` of
`C2000Ware/examples/cpu1/emif_dc_dma/cpu01/emif_dc_dma.c` as a deterministic
transition system over the control points of the procedure, together with the
arithmetic of the DMA channel configuration it programs.

* `Uint16` arithmetic is `Nat` arithmetic modulo `2^16` (`incr16`).
* The two buffers are stores indexed by word offset.
* What the hardware does (the samples of `TRANSFERSTS`, what the external
  memory holds after the initialisation writes, what it holds after the DMA
  wait) is a parameter, `Hardware`.
-/

namespace EmifDcDma

/-! ## Constants and data model -/

/-- Line 75: `#define BUFFER_WORDS 256`. -/
def BUFFER_WORDS : Nat := 256

/-- Number of values of a `Uint16`. -/
def UINT16_RANGE : Nat := 65536

/-- The `++` of a `Uint16` variable. -/
def incr16 (x : Nat) : Nat := (x + 1) % UINT16_RANGE

/-- A buffer of 16-bit words, indexed by word offset. -/
abbrev Buffer := Nat → Nat

/-- The assignment `buf[i] = v`. -/
def Buffer.store (buf : Buffer) (i v : Nat) : Buffer :=
  fun j => if j = i then v else buf j

/-- Lines 88-89: the two global arrays. -/
structure Memory where
  srcBuffer : Buffer
  dstBuffer : Buffer

/-- Accesses to the arrays and the other observable actions of `main`. -/
inductive Event where
  | writeSrc (index value : Nat)
  | writeDst (index value : Nat)
  | readSrc (index : Nat)
  | readDst (index : Nat)
  | estop0
  | forcePerint
  | sample (bit : Bool)
  deriving DecidableEq, Repr

/-- The array index of an event that is an array access. -/
def Event.index? : Event → Option Nat
  | .writeSrc i _ => some i
  | .writeDst i _ => some i
  | .readSrc i => some i
  | .readDst i => some i
  | _ => none

/-- Whether an event is a write to one of the arrays. -/
def Event.isWrite : Event → Bool
  | .writeSrc _ _ => true
  | .writeDst _ _ => true
  | _ => false

/-- Control points of `main`. -/
inductive Loc where
  /-- Line 130: head of the initialisation loop. -/
  | initLoop
  /-- Line 145: head of the initial verification loop. -/
  | verifyInitial
  /-- Lines 164-166: `PERINTFRC = 1`. -/
  | forceTrigger
  /-- Line 171: `while(TRANSFERSTS != 1)`. -/
  | waitBegin
  /-- Line 174: `while(TRANSFERSTS != 0)`. -/
  | waitComplete
  /-- Line 181: head of the final verification loop. -/
  | verifyFinal
  /-- Line 198: `if(errors == 0)`. -/
  | finalBranch
  /-- Line 200: `ESTOP0; // PASS`. -/
  | passed
  /-- Line 204: `ESTOP0; // FAIL`. -/
  | failed
  /-- Line 206: the closing brace of `main`; control has left `main`. -/
  | returned
  deriving DecidableEq, Repr

/-- The order of the control points in the text of `main`. -/
def Loc.rank : Loc → Nat
  | .initLoop => 0
  | .verifyInitial => 1
  | .forceTrigger => 2
  | .waitBegin => 3
  | .waitComplete => 4
  | .verifyFinal => 5
  | .finalBranch => 6
  | .passed => 7
  | .failed => 7
  | .returned => 8

/-- The three `for` loops over `word`. -/
def Loc.isLoop : Loc → Bool
  | .initLoop => true
  | .verifyInitial => true
  | .verifyFinal => true
  | _ => false

/-- The environment of `main`. -/
structure Hardware where
  /-- What the two buffers hold, as seen by the CPU, once the initialisation
  writes have gone through the EMIF; the identity for faithful memory. -/
  readBack : Memory → Memory
  /-- What the two buffers hold after the DMA wait, from what they held when
  the trigger was forced. -/
  transfer : Memory → Memory
  /-- The successive samples of `DmaRegs.CH1.CONTROL.bit.TRANSFERSTS`. -/
  TRANSFERSTS : Nat → Bool

/-- The state of `main`: control point, the two locals, the arrays, the number
of samples of `TRANSFERSTS` read so far, and the log of what was done. -/
structure State where
  loc : Loc
  word : Nat
  errors : Nat
  mem : Memory
  samples : Nat
  log : List Event

/-- One iteration of a verification loop (lines 145-159 with `expected i = 0`,
lines 181-196 with `expected i = i`), or its exit when `word < BUFFER_WORDS`
fails. Both the `break` and the normal exit go to `exit`. -/
def verifyIteration (expected : Nat → Nat) (exit : Loc) (s : State) : State :=
  if s.word < BUFFER_WORDS then
    if s.mem.srcBuffer s.word ≠ s.word then
      { s with errors := incr16 s.errors
               log := s.log ++ [Event.readSrc s.word, Event.estop0]
               loc := exit }
    else if s.mem.dstBuffer s.word ≠ expected s.word then
      { s with errors := incr16 s.errors
               log := s.log ++ [Event.readSrc s.word, Event.readDst s.word, Event.estop0]
               loc := exit }
    else
      { s with word := incr16 s.word
               log := s.log ++ [Event.readSrc s.word, Event.readDst s.word] }
  else
    { s with loc := exit }

/-- One step of `main`. -/
def mainStep (hw : Hardware) (s : State) : State :=
  match s.loc with
  | .initLoop =>
    -- lines 130-134; on exit, line 143 `errors = 0` and line 145 `word=0`
    if s.word < BUFFER_WORDS then
      { s with mem := ⟨s.mem.srcBuffer.store s.word s.word, s.mem.dstBuffer.store s.word 0⟩
               log := s.log ++ [Event.writeSrc s.word s.word, Event.writeDst s.word 0]
               word := incr16 s.word }
    else
      { s with loc := .verifyInitial, mem := hw.readBack s.mem, errors := 0, word := 0 }
  | .verifyInitial => verifyIteration (fun _ => 0) .forceTrigger s
  | .forceTrigger =>
    { s with loc := .waitBegin, log := s.log ++ [Event.forcePerint] }
  | .waitBegin =>
    if hw.TRANSFERSTS s.samples != true then
      { s with samples := s.samples + 1, log := s.log ++ [Event.sample (hw.TRANSFERSTS s.samples)] }
    else
      { s with samples := s.samples + 1, log := s.log ++ [Event.sample (hw.TRANSFERSTS s.samples)]
               loc := .waitComplete }
  | .waitComplete =>
    -- on exit, line 181 `word=0`
    if hw.TRANSFERSTS s.samples != false then
      { s with samples := s.samples + 1, log := s.log ++ [Event.sample (hw.TRANSFERSTS s.samples)] }
    else
      { s with samples := s.samples + 1, log := s.log ++ [Event.sample (hw.TRANSFERSTS s.samples)]
               loc := .verifyFinal, mem := hw.transfer s.mem, word := 0 }
  | .verifyFinal => verifyIteration (fun i => i) .finalBranch s
  | .finalBranch =>
    if s.errors = 0 then { s with loc := .passed } else { s with loc := .failed }
  | .passed => { s with loc := .returned, log := s.log ++ [Event.estop0] }
  | .failed => { s with loc := .returned, log := s.log ++ [Event.estop0] }
  | .returned => s

/-- The state after `n` steps. -/
def mainRun (hw : Hardware) : Nat → State → State
  | 0, s => s
  | n + 1, s => mainStep hw (mainRun hw n s)

/-- Entry of `main` at line 130 (`word=0`): `errors` is not yet initialised and
holds `garbage`; the arrays hold `m0`. Lines 103-125 only program peripherals. -/
def mainStart (m0 : Memory) (garbage : Nat) : State :=
  { loc := .initLoop, word := 0, errors := garbage, mem := m0, samples := 0, log := [] }

/-- The execution of `main` on hardware `hw`. -/
def mainExec (hw : Hardware) (m0 : Memory) (garbage : Nat) (n : Nat) : State :=
  mainRun hw n (mainStart m0 garbage)

/-! ### The DMA channel -/

/-- The values `main` passes to `DMACH1BurstConfig` (line 118),
`DMACH1TransferConfig` (line 120), `DMACH1WrapConfig` (line 121) and, for the
data size, `DMACH1ModeConfig` (lines 122-124). -/
structure DmaChannel where
  bsize : Nat
  srcbstep : Nat
  desbstep : Nat
  tsize : Nat
  srctstep : Nat
  deststep : Nat
  srcwsize : Nat
  srcwstep : Nat
  deswsize : Nat
  deswstep : Nat
  thirtyTwoBit : Bool

/-- Lines 118-124: the configuration of DMA channel 1. -/
def CH1 : DmaChannel where
  bsize := 31
  srcbstep := 2
  desbstep := 2
  tsize := BUFFER_WORDS / 32 - 1
  srctstep := 2
  deststep := 2
  srcwsize := 0xFFFF
  srcwstep := 0
  deswsize := 0xFFFF
  deswstep := 0
  thirtyTwoBit := true

/-- Modelled from the spec: the address generation of the DMA engine, which is
hardware and not code of the repository. One burst of `n` accesses from word
offset `a`, the burst step being added between accesses; gives the offsets
accessed and the offset of the last access. -/
def dmaBurst (bstep : Nat) : Nat → Nat → List Nat × Nat
  | 0, a => ([], a)
  | 1, a => ([a], a)
  | n + 2, a => (a :: (dmaBurst bstep (n + 1) (a + bstep)).1, (dmaBurst bstep (n + 1) (a + bstep)).2)

/-- Modelled from the spec: the address generation of the DMA engine over a
transfer of `bursts` bursts, the next one from word offset `a`. After each
burst the transfer step is added to the offset and the wrap counter goes down
by one; when the wrap counter has run out, the wrap step is instead added to
the offset `beg` the transfer began at, the next burst is from there, and the
counter is reloaded with the wrap size. -/
def dmaOffsets (accesses bstep tstep wsize wstep : Nat) : Nat → Nat → Nat → Nat → List Nat
  | 0, _, _, _ => []
  | bursts + 1, beg, a, wrap =>
    (dmaBurst bstep accesses a).1 ++
      (if wrap = 0 then
        dmaOffsets accesses bstep tstep wsize wstep bursts (beg + wstep) (beg + wstep) wsize
       else
        dmaOffsets accesses bstep tstep wsize wstep bursts beg
          ((dmaBurst bstep accesses a).2 + tstep) (wrap - 1))

/-- Modelled from the spec: a burst of `bsize + 1` words is `(bsize + 1) / 2`
accesses of two words in 32-bit mode. -/
def DmaChannel.accessesPerBurst (ch : DmaChannel) : Nat :=
  if ch.thirtyTwoBit then (ch.bsize + 1) / 2 else ch.bsize + 1

/-- Modelled from the spec: the words moved by one access. -/
def DmaChannel.wordsPerAccess (ch : DmaChannel) : Nat :=
  if ch.thirtyTwoBit then 2 else 1

/-- Modelled from the spec: the word offsets in `srcBuffer` of the accesses of
one transfer of `tsize + 1` bursts. -/
def DmaChannel.srcOffsets (ch : DmaChannel) : List Nat :=
  dmaOffsets ch.accessesPerBurst ch.srcbstep ch.srctstep ch.srcwsize ch.srcwstep
    (ch.tsize + 1) 0 0 ch.srcwsize

/-- Modelled from the spec: the word offsets in `dstBuffer` of the accesses of
one transfer of `tsize + 1` bursts. -/
def DmaChannel.dstOffsets (ch : DmaChannel) : List Nat :=
  dmaOffsets ch.accessesPerBurst ch.desbstep ch.deststep ch.deswsize ch.deswstep
    (ch.tsize + 1) 0 0 ch.deswsize

/-- Modelled from the spec: the words covered by accesses at the given offsets,
in the order in which they are moved. -/
def DmaChannel.wordsOf (ch : DmaChannel) (offsets : List Nat) : List Nat :=
  offsets.flatMap (fun o => (List.range ch.wordsPerAccess).map (fun d => o + d))

/-! ### Concrete hardware and inputs -/

/-- Faithful memory, a DMA that copies the source buffer, and a status bit that
reads 1 once and 0 afterwards. -/
def idealHardware : Hardware where
  readBack := fun m => m
  transfer := fun m => ⟨m.srcBuffer, m.srcBuffer⟩
  TRANSFERSTS := fun k => k == 0

/-- Faithful memory and a copying DMA whose status bit is never seen at 1: the
transfer is over before the first sample. -/
def missedHardware : Hardware where
  readBack := fun m => m
  transfer := fun m => ⟨m.srcBuffer, m.srcBuffer⟩
  TRANSFERSTS := fun _ => false

/-- Memory in which word 3 of the destination reads back as 9, a DMA that
copies the source buffer, and a status bit that reads 1 once. -/
def flakyHardware : Hardware where
  readBack := fun m => ⟨m.srcBuffer, fun i => if i = 3 then 9 else m.dstBuffer i⟩
  transfer := fun m => ⟨m.srcBuffer, m.srcBuffer⟩
  TRANSFERSTS := fun k => k == 0

/-- The entry of the initial verification loop on arrays whose word 3 of the
destination holds 9 instead of 0. -/
def flakyEntry : State where
  loc := .verifyInitial
  word := 0
  errors := 0
  mem := ⟨fun i => i, fun i => if i = 3 then 9 else 0⟩
  samples := 0
  log := []

/-- Arrays full of zeros. -/
def zeroMemory : Memory := ⟨fun _ => 0, fun _ => 0⟩

/-! ## Specification vocabulary -/

/-- The arrays after the first `k` iterations of the initialisation loop. -/
def initMem (m : Memory) : Nat → Memory
  | 0 => m
  | k + 1 => ⟨(initMem m k).srcBuffer.store k k, (initMem m k).dstBuffer.store k 0⟩

/-- Index `i` fails the test of a verification loop. -/
def Mismatch (expected : Nat → Nat) (m : Memory) (i : Nat) : Prop :=
  m.srcBuffer i ≠ i ∨ m.dstBuffer i ≠ expected i

instance (expected : Nat → Nat) (m : Memory) (i : Nat) : Decidable (Mismatch expected m i) :=
  inferInstanceAs (Decidable (_ ∨ _))

/-- No index below `BUFFER_WORDS` fails the test of a verification loop. -/
def Clean (expected : Nat → Nat) (m : Memory) : Prop :=
  ∀ i, i < BUFFER_WORDS → ¬ Mismatch expected m i

instance (expected : Nat → Nat) (m : Memory) : Decidable (Clean expected m) :=
  inferInstanceAs (Decidable (∀ i, i < BUFFER_WORDS → _))

/-- The arrays as the initial verification loop reads them. -/
def memInitial (hw : Hardware) (m0 : Memory) : Memory :=
  hw.readBack (initMem m0 BUFFER_WORDS)

/-- The arrays as the final verification loop reads them. -/
def memFinal (hw : Hardware) (m0 : Memory) : Memory :=
  hw.transfer (memInitial hw m0)

/-- The initial verification found no mismatch. -/
def InitialClean (hw : Hardware) (m0 : Memory) : Prop :=
  Clean (fun _ => 0) (memInitial hw m0)

/-- The post-transfer verification found no mismatch. -/
def FinalClean (hw : Hardware) (m0 : Memory) : Prop :=
  Clean (fun i => i) (memFinal hw m0)

instance (hw : Hardware) (m0 : Memory) : Decidable (InitialClean hw m0) :=
  inferInstanceAs (Decidable (Clean _ _))

instance (hw : Hardware) (m0 : Memory) : Decidable (FinalClean hw m0) :=
  inferInstanceAs (Decidable (Clean _ _))

/-- Every array access recorded in the log is inside the arrays. -/
def LogInBounds (log : List Event) : Prop :=
  ∀ e, e ∈ log → ∀ i, e.index? = some i → i < BUFFER_WORDS

/-- The samples `0 .. n-1` are all 0. -/
def NoOneBefore (sts : Nat → Bool) (n : Nat) : Prop :=
  ∀ k, k < n → sts k = false

/-- Sample `a` is the first 1 and the samples after it and before `n` are 1. -/
def OneThenOnes (sts : Nat → Bool) (a n : Nat) : Prop :=
  sts a = true ∧ NoOneBefore sts a ∧ ∀ k, a < k → k < n → sts k = true

/-- Sample `a` is the first 1 and sample `b` is the first 0 after it. -/
def OneThenZero (sts : Nat → Bool) (a b : Nat) : Prop :=
  a < b ∧ OneThenOnes sts a b ∧ sts b = false

/-- The sequence of samples contains a 1 followed later by a 0. -/
def WaitFinishes (sts : Nat → Bool) : Prop :=
  ∃ i j, i < j ∧ sts i = true ∧ sts j = false

/-- The value of `errors` after the initial verification. -/
def errorsInitial (hw : Hardware) (m0 : Memory) : Nat :=
  if InitialClean hw m0 then 0 else 1

/-- The value of `errors` after the final verification. -/
def errorsFinal (hw : Hardware) (m0 : Memory) : Nat :=
  errorsInitial hw m0 + if FinalClean hw m0 then 0 else 1

/-- The two verification loops: `false` is the initial one (lines 145-159),
`true` the final one (lines 181-196). -/
def verifyLoc : Bool → Loc
  | false => .verifyInitial
  | true => .verifyFinal

/-- Where a verification loop goes when it ends. -/
def verifyExit : Bool → Loc
  | false => .forceTrigger
  | true => .finalBranch

/-- What a verification loop expects in `dstBuffer[i]`. -/
def verifyExpected : Bool → Nat → Nat
  | false => fun _ => 0
  | true => fun i => i

/-- The log of the first `k` iterations of the initialisation loop. -/
def initWrites : Nat → List Event
  | 0 => []
  | k + 1 => initWrites k ++ [Event.writeSrc k k, Event.writeDst k 0]

/-- The log of `k` iterations of a verification loop that find no mismatch. -/
def verifyReads : Nat → List Event
  | 0 => []
  | k + 1 => verifyReads k ++ [Event.readSrc k, Event.readDst k]

/-- The log of the iteration of a verification loop that finds the mismatch
at index `k`. -/
def breakReads (m : Memory) (k : Nat) : List Event :=
  if m.srcBuffer k ≠ k then [Event.readSrc k, Event.estop0]
  else [Event.readSrc k, Event.readDst k, Event.estop0]

/-- Faithful memory: what is read back is what was written. -/
def FaithfulMemory (hw : Hardware) : Prop :=
  ∀ m i, i < BUFFER_WORDS →
    (hw.readBack m).srcBuffer i = m.srcBuffer i ∧ (hw.readBack m).dstBuffer i = m.dstBuffer i

/-- The DMA transfer copies the `BUFFER_WORDS` words of `srcBuffer` into
`dstBuffer` and leaves `srcBuffer` unchanged. -/
def DmaCopies (hw : Hardware) : Prop :=
  ∀ m i, i < BUFFER_WORDS →
    (hw.transfer m).srcBuffer i = m.srcBuffer i ∧ (hw.transfer m).dstBuffer i = m.srcBuffer i

/-- Two states that differ at most in `errors`. -/
def SameButErrors (s t : State) : Prop :=
  s.loc = t.loc ∧ s.word = t.word ∧ s.mem = t.mem ∧ s.samples = t.samples ∧ s.log = t.log

/-- What holds at each control point. -/
def LocInv (hw : Hardware) (m0 : Memory) (s : State) : Loc → Prop
  | .initLoop => s.mem = initMem m0 s.word ∧ s.samples = 0
  | .verifyInitial =>
      s.mem = memInitial hw m0 ∧ s.samples = 0 ∧ s.errors = 0 ∧
      ∀ i, i < s.word → ¬ Mismatch (fun _ => 0) (memInitial hw m0) i
  | .forceTrigger =>
      s.mem = memInitial hw m0 ∧ s.samples = 0 ∧ s.errors = errorsInitial hw m0
  | .waitBegin =>
      s.mem = memInitial hw m0 ∧ s.errors = errorsInitial hw m0 ∧
      NoOneBefore hw.TRANSFERSTS s.samples
  | .waitComplete =>
      s.mem = memInitial hw m0 ∧ s.errors = errorsInitial hw m0 ∧
      ∃ a, a < s.samples ∧ OneThenOnes hw.TRANSFERSTS a s.samples
  | .verifyFinal =>
      s.mem = memFinal hw m0 ∧ s.errors = errorsInitial hw m0 ∧
      (∃ a b, OneThenZero hw.TRANSFERSTS a b ∧ s.samples = b + 1) ∧
      ∀ i, i < s.word → ¬ Mismatch (fun i => i) (memFinal hw m0) i
  | .finalBranch =>
      s.mem = memFinal hw m0 ∧ s.errors = errorsFinal hw m0 ∧
      ∃ a b, OneThenZero hw.TRANSFERSTS a b ∧ s.samples = b + 1
  | .passed =>
      s.mem = memFinal hw m0 ∧ s.errors = errorsFinal hw m0 ∧
      (∃ a b, OneThenZero hw.TRANSFERSTS a b ∧ s.samples = b + 1) ∧ s.errors = 0
  | .failed =>
      s.mem = memFinal hw m0 ∧ s.errors = errorsFinal hw m0 ∧
      (∃ a b, OneThenZero hw.TRANSFERSTS a b ∧ s.samples = b + 1) ∧ s.errors ≠ 0
  | .returned =>
      s.mem = memFinal hw m0 ∧ s.errors = errorsFinal hw m0 ∧
      ∃ a b, OneThenZero hw.TRANSFERSTS a b ∧ s.samples = b + 1

/-- The invariant of `main`. -/
def Inv (hw : Hardware) (m0 : Memory) (s : State) : Prop :=
  s.word ≤ BUFFER_WORDS ∧ LogInBounds s.log ∧ LocInv hw m0 s s.loc

/-! ## Basic lemmas -/

theorem incr16_of_le {x : Nat} (h : x ≤ BUFFER_WORDS) : incr16 x = x + 1 := by
  unfold incr16 UINT16_RANGE
  unfold BUFFER_WORDS at h
  omega

theorem logInBounds_nil : LogInBounds [] := by
  intro e he
  simp at he

theorem logInBounds_append {l₁ l₂ : List Event} (h₁ : LogInBounds l₁) (h₂ : LogInBounds l₂) :
    LogInBounds (l₁ ++ l₂) := by
  intro e he i hi
  rcases List.mem_append.mp he with h | h
  · exact h₁ e h i hi
  · exact h₂ e h i hi

theorem mainRun_add (hw : Hardware) (a b : Nat) (s : State) :
    mainRun hw (a + b) s = mainRun hw b (mainRun hw a s) := by
  induction b with
  | zero => rfl
  | succ b ih =>
    show mainStep hw (mainRun hw (a + b) s) = mainStep hw (mainRun hw b (mainRun hw a s))
    rw [ih]

theorem mainRun_succ_left (hw : Hardware) (n : Nat) (s : State) :
    mainRun hw (n + 1) s = mainRun hw n (mainStep hw s) := by
  rw [Nat.add_comm, mainRun_add]
  rfl

theorem errorsInitial_le (hw : Hardware) (m0 : Memory) : errorsInitial hw m0 ≤ 1 := by
  unfold errorsInitial
  split <;> omega

theorem errorsFinal_le (hw : Hardware) (m0 : Memory) : errorsFinal hw m0 ≤ 2 := by
  have := errorsInitial_le hw m0
  unfold errorsFinal
  split <;> omega

theorem errorsFinal_eq_zero_iff (hw : Hardware) (m0 : Memory) :
    errorsFinal hw m0 = 0 ↔ InitialClean hw m0 ∧ FinalClean hw m0 := by
  unfold errorsFinal errorsInitial
  by_cases h₁ : InitialClean hw m0 <;> by_cases h₂ : FinalClean hw m0 <;> simp [h₁, h₂]

/-! ## The invariant -/

theorem initMem_src_dst (m : Memory) (k : Nat) :
    (∀ i, i < k → (initMem m k).srcBuffer i = i ∧ (initMem m k).dstBuffer i = 0) ∧
    (∀ i, k ≤ i → (initMem m k).srcBuffer i = m.srcBuffer i ∧
      (initMem m k).dstBuffer i = m.dstBuffer i) := by
  induction k with
  | zero =>
    refine ⟨fun i hi => absurd hi (Nat.not_lt_zero i), fun i _ => ⟨rfl, rfl⟩⟩
  | succ k ih =>
    refine ⟨fun i hi => ?_, fun i hi => ?_⟩
    · by_cases hik : i = k
      · subst hik
        simp [initMem, Buffer.store]
      · have hlt : i < k := by omega
        simp [initMem, Buffer.store, hik, ih.1 i hlt]
    · have hik : i ≠ k := by omega
      have hle : k ≤ i := by omega
      simp [initMem, Buffer.store, hik, ih.2 i hle]

theorem verifyIteration_done (expected : Nat → Nat) (exit : Loc) {s : State}
    (h : ¬ s.word < BUFFER_WORDS) :
    verifyIteration expected exit s = { s with loc := exit } := by
  unfold verifyIteration
  rw [if_neg h]

theorem verifyIteration_src (expected : Nat → Nat) (exit : Loc) {s : State}
    (h : s.word < BUFFER_WORDS) (hsrc : s.mem.srcBuffer s.word ≠ s.word) :
    verifyIteration expected exit s =
      { s with errors := incr16 s.errors
               log := s.log ++ [Event.readSrc s.word, Event.estop0]
               loc := exit } := by
  unfold verifyIteration
  rw [if_pos h, if_pos hsrc]

theorem verifyIteration_dst (expected : Nat → Nat) (exit : Loc) {s : State}
    (h : s.word < BUFFER_WORDS) (hsrc : ¬ s.mem.srcBuffer s.word ≠ s.word)
    (hdst : s.mem.dstBuffer s.word ≠ expected s.word) :
    verifyIteration expected exit s =
      { s with errors := incr16 s.errors
               log := s.log ++ [Event.readSrc s.word, Event.readDst s.word, Event.estop0]
               loc := exit } := by
  unfold verifyIteration
  rw [if_pos h, if_neg hsrc, if_pos hdst]

theorem verifyIteration_next (expected : Nat → Nat) (exit : Loc) {s : State}
    (h : s.word < BUFFER_WORDS) (hsrc : ¬ s.mem.srcBuffer s.word ≠ s.word)
    (hdst : ¬ s.mem.dstBuffer s.word ≠ expected s.word) :
    verifyIteration expected exit s =
      { s with word := incr16 s.word
               log := s.log ++ [Event.readSrc s.word, Event.readDst s.word] } := by
  unfold verifyIteration
  rw [if_pos h, if_neg hsrc, if_neg hdst]

theorem logInBounds_access {log l : List Event} {w : Nat} (hlog : LogInBounds log)
    (hw : w < BUFFER_WORDS)
    (hl : ∀ e, e ∈ l → e.index? = some w ∨ e.index? = none) : LogInBounds (log ++ l) := by
  refine logInBounds_append hlog ?_
  intro e he i hi
  rcases hl e he with h | h
  · rw [h] at hi
    cases hi
    exact hw
  · rw [h] at hi
    cases hi

theorem verifyIteration_inv {hw : Hardware} {m0 : Memory} {expected : Nat → Nat} {m : Memory}
    {exit : Loc} {s : State} (hword : s.word ≤ BUFFER_WORDS) (hlog : LogInBounds s.log)
    (hmem : s.mem = m) (hpre : ∀ i, i < s.word → ¬ Mismatch expected m i)
    (hstay : s.word < BUFFER_WORDS → ¬ Mismatch expected m s.word →
      LocInv hw m0 { s with word := s.word + 1
                            log := s.log ++ [Event.readSrc s.word, Event.readDst s.word] }
      s.loc)
    (hexit : ∀ log, LocInv hw m0 { s with loc := exit, log := log
                                          errors := s.errors + if Clean expected m then 0 else 1 }
      exit)
    (herr : s.errors ≤ BUFFER_WORDS) :
    Inv hw m0 (verifyIteration expected exit s) := by
  by_cases hw256 : s.word < BUFFER_WORDS
  · by_cases hsrc : s.mem.srcBuffer s.word ≠ s.word
    · have hnc : ¬ Clean expected m := fun hc => hc s.word hw256 (Or.inl (hmem ▸ hsrc))
      have h := hexit (s.log ++ [Event.readSrc s.word, Event.estop0])
      rw [if_neg hnc] at h
      rw [verifyIteration_src expected exit hw256 hsrc, incr16_of_le herr]
      refine ⟨hword, logInBounds_access hlog hw256 ?_, h⟩
      intro e he
      simp at he
      rcases he with rfl | rfl <;> simp [Event.index?]
    · by_cases hdst : s.mem.dstBuffer s.word ≠ expected s.word
      · have hnc : ¬ Clean expected m := fun hc => hc s.word hw256 (Or.inr (hmem ▸ hdst))
        have h := hexit (s.log ++ [Event.readSrc s.word, Event.readDst s.word, Event.estop0])
        rw [if_neg hnc] at h
        rw [verifyIteration_dst expected exit hw256 hsrc hdst, incr16_of_le herr]
        refine ⟨hword, logInBounds_access hlog hw256 ?_, h⟩
        intro e he
        simp at he
        rcases he with rfl | rfl | rfl <;> simp [Event.index?]
      · rw [verifyIteration_next expected exit hw256 hsrc hdst, incr16_of_le hword]
        have hm : ¬ Mismatch expected m s.word := by
          rintro (h | h)
          · exact hsrc (hmem ▸ h)
          · exact hdst (hmem ▸ h)
        refine ⟨hw256, logInBounds_access hlog hw256 ?_, hstay hw256 hm⟩
        intro e he
        simp at he
        rcases he with rfl | rfl <;> simp [Event.index?]
  · have h256 : s.word = BUFFER_WORDS := by omega
    have hc : Clean expected m := fun i hi => hpre i (h256 ▸ hi)
    have h := hexit s.log
    rw [if_pos hc, Nat.add_zero] at h
    rw [verifyIteration_done expected exit hw256]
    exact ⟨hword, hlog, h⟩

theorem inv_start (hw : Hardware) (m0 : Memory) (garbage : Nat) :
    Inv hw m0 (mainStart m0 garbage) :=
  ⟨Nat.zero_le _, logInBounds_nil, rfl, rfl⟩

theorem logInBounds_other {log l : List Event} (hlog : LogInBounds log)
    (hl : ∀ e, e ∈ l → e.index? = none) : LogInBounds (log ++ l) := by
  refine logInBounds_append hlog ?_
  intro e he i hi
  rw [hl e he] at hi
  cases hi

theorem inv_step (hw : Hardware) (m0 : Memory) (s : State) (h : Inv hw m0 s) :
    Inv hw m0 (mainStep hw s) := by
  obtain ⟨loc, word, errors, mem, samples, log⟩ := s
  obtain ⟨hword, hlog, hloc⟩ := h
  simp only at hword hlog hloc
  cases loc with
  | initLoop =>
    obtain ⟨hmem, hsam⟩ := hloc
    simp only at hmem hsam
    by_cases hlt : word < BUFFER_WORDS
    · simp only [mainStep, if_pos hlt, incr16_of_le hword]
      refine ⟨hlt, logInBounds_access hlog hlt ?_, ?_, hsam⟩
      · intro e he
        simp at he
        rcases he with rfl | rfl <;> simp [Event.index?]
      · show Memory.mk _ _ = initMem m0 (word + 1)
        rw [hmem]
        rfl
    · have h256 : word = BUFFER_WORDS := by omega
      simp only [mainStep, if_neg hlt]
      refine ⟨Nat.zero_le _, hlog, ?_, hsam, rfl, ?_⟩
      · show hw.readBack mem = memInitial hw m0
        rw [hmem, h256]
        rfl
      · intro i hi
        exact absurd hi (Nat.not_lt_zero i)
  | verifyInitial =>
    obtain ⟨hmem, hsam, herr, hpre⟩ := hloc
    simp only at hmem hsam herr hpre
    refine verifyIteration_inv hword hlog hmem hpre ?_ ?_ ?_
    · intro hlt hm
      refine ⟨hmem, hsam, herr, ?_⟩
      intro i hi
      rcases Nat.lt_succ_iff_lt_or_eq.mp hi with h | h
      · exact hpre i h
      · exact h ▸ hm
    · intro log'
      refine ⟨hmem, hsam, ?_⟩
      show errors + _ = errorsInitial hw m0
      rw [herr, Nat.zero_add]
      rfl
    · show errors ≤ BUFFER_WORDS
      rw [herr]
      exact Nat.zero_le _
  | forceTrigger =>
    obtain ⟨hmem, hsam, herr⟩ := hloc
    simp only at hmem hsam herr
    refine ⟨hword, logInBounds_other hlog ?_, hmem, herr, ?_⟩
    · intro e he
      simp at he
      subst he
      rfl
    · intro k hk
      rw [show samples = 0 from hsam] at hk
      exact absurd hk (Nat.not_lt_zero k)
  | waitBegin =>
    obtain ⟨hmem, herr, hno⟩ := hloc
    simp only at hmem herr hno
    have hl : LogInBounds (log ++ [Event.sample (hw.TRANSFERSTS samples)]) := by
      refine logInBounds_other hlog ?_
      intro e he
      simp at he
      subst he
      rfl
    by_cases hb : hw.TRANSFERSTS samples = true
    · have hc : ¬ (hw.TRANSFERSTS samples != true) = true := by simp [hb]
      simp only [mainStep, if_neg hc]
      refine ⟨hword, hl, hmem, herr, samples, Nat.lt_succ_self _, hb, hno, ?_⟩
      intro k h1 h2
      exact absurd (Nat.lt_succ_iff.mp h2) (Nat.not_le_of_lt h1)
    · have hc : (hw.TRANSFERSTS samples != true) = true := by simp [hb]
      simp only [mainStep, if_pos hc]
      refine ⟨hword, hl, hmem, herr, ?_⟩
      intro k hk
      rcases Nat.lt_succ_iff_lt_or_eq.mp hk with h | h
      · exact hno k h
      · rw [h]
        simpa using hb
  | waitComplete =>
    obtain ⟨hmem, herr, a, ha, hone, hzero, hones⟩ := hloc
    simp only at hmem herr ha hones
    have hl : LogInBounds (log ++ [Event.sample (hw.TRANSFERSTS samples)]) := by
      refine logInBounds_other hlog ?_
      intro e he
      simp at he
      subst he
      rfl
    by_cases hb : hw.TRANSFERSTS samples = false
    · have hc : ¬ (hw.TRANSFERSTS samples != false) = true := by simp [hb]
      simp only [mainStep, if_neg hc]
      refine ⟨Nat.zero_le _, hl, ?_, herr, ⟨a, samples, ⟨ha, ⟨hone, hzero, hones⟩, hb⟩, rfl⟩, ?_⟩
      · show hw.transfer mem = memFinal hw m0
        rw [hmem]
        rfl
      · intro i hi
        exact absurd hi (Nat.not_lt_zero i)
    · have hc : (hw.TRANSFERSTS samples != false) = true := by simp [hb]
      simp only [mainStep, if_pos hc]
      refine ⟨hword, hl, hmem, herr, a, Nat.lt_succ_of_lt ha, hone, hzero, ?_⟩
      intro k h1 h2
      rcases Nat.lt_succ_iff_lt_or_eq.mp h2 with h | h
      · exact hones k h1 h
      · rw [h]
        simpa using hb
  | verifyFinal =>
    obtain ⟨hmem, herr, hwait, hpre⟩ := hloc
    simp only at hmem herr hwait hpre
    refine verifyIteration_inv hword hlog hmem hpre ?_ ?_ ?_
    · intro hlt hm
      refine ⟨hmem, herr, hwait, ?_⟩
      intro i hi
      rcases Nat.lt_succ_iff_lt_or_eq.mp hi with h | h
      · exact hpre i h
      · exact h ▸ hm
    · intro log'
      refine ⟨hmem, ?_, hwait⟩
      show errors + _ = errorsFinal hw m0
      rw [herr]
      rfl
    · show errors ≤ BUFFER_WORDS
      rw [herr]
      exact Nat.le_trans (errorsInitial_le hw m0) (by decide)
  | finalBranch =>
    obtain ⟨hmem, herr, hwait⟩ := hloc
    simp only at hmem herr hwait
    by_cases h0 : errors = 0
    · simp only [mainStep, if_pos h0]
      exact ⟨hword, hlog, hmem, herr, hwait, h0⟩
    · simp only [mainStep, if_neg h0]
      exact ⟨hword, hlog, hmem, herr, hwait, h0⟩
  | passed =>
    obtain ⟨hmem, herr, hwait, _⟩ := hloc
    refine ⟨hword, logInBounds_other hlog ?_, hmem, herr, hwait⟩
    intro e he
    simp at he
    subst he
    rfl
  | failed =>
    obtain ⟨hmem, herr, hwait, _⟩ := hloc
    refine ⟨hword, logInBounds_other hlog ?_, hmem, herr, hwait⟩
    intro e he
    simp at he
    subst he
    rfl
  | returned => exact ⟨hword, hlog, hloc⟩

theorem inv_run (hw : Hardware) (m0 : Memory) (n : Nat) (s : State) (h : Inv hw m0 s) :
    Inv hw m0 (mainRun hw n s) := by
  induction n with
  | zero => exact h
  | succ n ih => exact inv_step hw m0 _ ih

theorem inv_exec (hw : Hardware) (m0 : Memory) (garbage n : Nat) :
    Inv hw m0 (mainExec hw m0 garbage n) :=
  inv_run hw m0 n _ (inv_start hw m0 garbage)

/-! ## The loops, iteration by iteration -/

theorem mainStep_verify (hw : Hardware) (final : Bool) (t : State)
    (h : t.loc = verifyLoc final) :
    mainStep hw t = verifyIteration (verifyExpected final) (verifyExit final) t := by
  obtain ⟨loc, word, errors, mem, samples, log⟩ := t
  cases final <;> cases h <;> rfl

theorem verifyExit_ne (final : Bool) : verifyExit final ≠ verifyLoc final := by
  cases final <;> decide

theorem init_upto (hw : Hardware) (s : State) (hloc : s.loc = .initLoop) (hword : s.word = 0)
    (k : Nat) (hk : k ≤ BUFFER_WORDS) :
    mainRun hw k s = { s with word := k, mem := initMem s.mem k, log := s.log ++ initWrites k } := by
  obtain ⟨loc, word, errors, mem, samples, log⟩ := s
  cases hloc
  cases hword
  induction k with
  | zero => simp [mainRun, initMem, initWrites]
  | succ k ih =>
    have hlt : k < BUFFER_WORDS := hk
    show mainStep hw (mainRun hw k _) = _
    rw [ih (Nat.le_of_lt hlt)]
    simp only [mainStep, if_pos hlt, incr16_of_le (Nat.le_of_lt hlt), initMem, initWrites,
      List.append_assoc]

theorem init_exit (hw : Hardware) (s : State) (hloc : s.loc = .initLoop) (hword : s.word = 0) :
    mainRun hw (BUFFER_WORDS + 1) s =
      { s with loc := .verifyInitial, word := 0, errors := 0
               mem := hw.readBack (initMem s.mem BUFFER_WORDS)
               log := s.log ++ initWrites BUFFER_WORDS } := by
  show mainStep hw (mainRun hw BUFFER_WORDS s) = _
  rw [init_upto hw s hloc hword BUFFER_WORDS (Nat.le_refl _)]
  obtain ⟨loc, word, errors, mem, samples, log⟩ := s
  cases hloc
  simp only [mainStep, if_neg (Nat.lt_irrefl BUFFER_WORDS)]

theorem verify_upto (hw : Hardware) (final : Bool) (s : State)
    (hloc : s.loc = verifyLoc final) (hword : s.word = 0) (k : Nat) (hk : k ≤ BUFFER_WORDS)
    (hclean : ∀ i, i < k → ¬ Mismatch (verifyExpected final) s.mem i) :
    mainRun hw k s = { s with word := k, log := s.log ++ verifyReads k } := by
  induction k with
  | zero =>
    obtain ⟨loc, word, errors, mem, samples, log⟩ := s
    cases hword
    simp [mainRun, verifyReads]
  | succ k ih =>
    have hlt : k < BUFFER_WORDS := hk
    have hm := hclean k (Nat.lt_succ_self k)
    show mainStep hw (mainRun hw k s) = _
    rw [ih (Nat.le_of_lt hlt) (fun i hi => hclean i (Nat.lt_succ_of_lt hi))]
    rw [mainStep_verify hw final { s with word := k, log := s.log ++ verifyReads k } hloc]
    rw [verifyIteration_next _ _ hlt (fun h => hm (Or.inl h)) (fun h => hm (Or.inr h))]
    simp only [incr16_of_le (Nat.le_of_lt hlt), verifyReads, List.append_assoc]

theorem verify_clean_exit (hw : Hardware) (final : Bool) (s : State)
    (hloc : s.loc = verifyLoc final) (hword : s.word = 0)
    (hclean : Clean (verifyExpected final) s.mem) :
    mainRun hw (BUFFER_WORDS + 1) s =
      { s with loc := verifyExit final, word := BUFFER_WORDS
               log := s.log ++ verifyReads BUFFER_WORDS } := by
  show mainStep hw (mainRun hw BUFFER_WORDS s) = _
  rw [verify_upto hw final s hloc hword BUFFER_WORDS (Nat.le_refl _) hclean]
  rw [mainStep_verify hw final
    { s with word := BUFFER_WORDS, log := s.log ++ verifyReads BUFFER_WORDS } hloc]
  rw [verifyIteration_done _ _ (Nat.lt_irrefl BUFFER_WORDS)]

theorem verify_break_exit (hw : Hardware) (final : Bool) (s : State)
    (hloc : s.loc = verifyLoc final) (hword : s.word = 0) (k : Nat) (hk : k < BUFFER_WORDS)
    (hclean : ∀ i, i < k → ¬ Mismatch (verifyExpected final) s.mem i)
    (hbad : Mismatch (verifyExpected final) s.mem k) :
    mainRun hw (k + 1) s =
      { s with loc := verifyExit final, word := k, errors := incr16 s.errors
               log := s.log ++ verifyReads k ++ breakReads s.mem k } := by
  show mainStep hw (mainRun hw k s) = _
  rw [verify_upto hw final s hloc hword k (Nat.le_of_lt hk) hclean]
  rw [mainStep_verify hw final { s with word := k, log := s.log ++ verifyReads k } hloc]
  by_cases hsrc : s.mem.srcBuffer k ≠ k
  · rw [verifyIteration_src _ _ hk hsrc]
    simp only [breakReads, if_pos hsrc]
  · have hdst : s.mem.dstBuffer k ≠ verifyExpected final k := by
      rcases hbad with h | h
      · exact absurd h hsrc
      · exact h
    rw [verifyIteration_dst _ _ hk hsrc hdst]
    simp only [breakReads, if_neg hsrc]

/-- The index at which a verification loop stops: the first mismatch, or
`BUFFER_WORDS` when there is none. -/
theorem exists_first_mismatch (expected : Nat → Nat) (m : Memory) (h : ¬ Clean expected m) :
    ∃ k, k < BUFFER_WORDS ∧ Mismatch expected m k ∧ ∀ i, i < k → ¬ Mismatch expected m i := by
  have hex : ∃ k, k < BUFFER_WORDS ∧ Mismatch expected m k := by
    unfold Clean at h
    push_neg at h
    exact h
  refine ⟨Nat.find hex, (Nat.find_spec hex).1, (Nat.find_spec hex).2, ?_⟩
  intro i hi hm
  exact Nat.find_min hex hi ⟨Nat.lt_trans hi (Nat.find_spec hex).1, hm⟩

theorem verify_leaves (hw : Hardware) (final : Bool) (s : State)
    (hloc : s.loc = verifyLoc final) (hword : s.word = 0) :
    ∃ k, k ≤ BUFFER_WORDS ∧ (mainRun hw (k + 1) s).loc = verifyExit final ∧
      ∀ j, j ≤ k → (mainRun hw j s).loc = s.loc ∧ (mainRun hw j s).word = j := by
  by_cases hc : Clean (verifyExpected final) s.mem
  · refine ⟨BUFFER_WORDS, Nat.le_refl _, ?_, ?_⟩
    · rw [verify_clean_exit hw final s hloc hword hc]
    · intro j hj
      rw [verify_upto hw final s hloc hword j hj (fun i hi => hc i (Nat.lt_of_lt_of_le hi hj))]
      exact ⟨rfl, rfl⟩
  · obtain ⟨k, hk, hbad, hmin⟩ := exists_first_mismatch _ _ hc
    refine ⟨k, Nat.le_of_lt hk, ?_, ?_⟩
    · rw [verify_break_exit hw final s hloc hword k hk hmin hbad]
    · intro j hj
      rw [verify_upto hw final s hloc hword j (Nat.le_trans hj (Nat.le_of_lt hk))
        (fun i hi => hmin i (Nat.lt_of_lt_of_le hi hj))]
      exact ⟨rfl, rfl⟩

/-! ## Control only moves forward -/

theorem rank_verifyIteration (expected : Nat → Nat) (exit : Loc) (s : State)
    (h : s.loc.rank ≤ exit.rank) :
    s.loc.rank ≤ (verifyIteration expected exit s).loc.rank := by
  unfold verifyIteration
  split
  · split
    · exact h
    · split
      · exact h
      · exact Nat.le_refl _
  · exact h

theorem rank_step (hw : Hardware) (s : State) : s.loc.rank ≤ (mainStep hw s).loc.rank := by
  obtain ⟨loc, word, errors, mem, samples, log⟩ := s
  cases loc
  case verifyInitial => exact rank_verifyIteration _ _ _ (by simp [Loc.rank])
  case verifyFinal => exact rank_verifyIteration _ _ _ (by simp [Loc.rank])
  all_goals
    simp only [mainStep]
    try split
    all_goals simp [Loc.rank]

theorem rank_run (hw : Hardware) (s : State) (n : Nat) :
    s.loc.rank ≤ (mainRun hw n s).loc.rank := by
  induction n with
  | zero => exact Nat.le_refl _
  | succ n ih => exact Nat.le_trans ih (rank_step hw _)

theorem rank_mono (hw : Hardware) (s : State) {a b : Nat} (h : a ≤ b) :
    (mainRun hw a s).loc.rank ≤ (mainRun hw b s).loc.rank := by
  obtain ⟨d, rfl⟩ := Nat.exists_eq_add_of_le h
  rw [mainRun_add]
  exact rank_run hw _ d

/-! ## The wait -/

theorem waitBegin_reach (hw : Hardware) (d : Nat) :
    ∀ s : State, s.loc = .waitBegin → hw.TRANSFERSTS (s.samples + d) = true →
      (∀ k, k < d → hw.TRANSFERSTS (s.samples + k) = false) →
      (mainRun hw (d + 1) s).loc = .waitComplete ∧
        (mainRun hw (d + 1) s).samples = s.samples + d + 1 := by
  induction d with
  | zero =>
    intro s hloc hone _
    obtain ⟨loc, word, errors, mem, samples, log⟩ := s
    cases hloc
    have hb : hw.TRANSFERSTS samples = true := hone
    have hc : ¬ (hw.TRANSFERSTS samples != true) = true := by simp [hb]
    simp [mainRun, mainStep, hb]
  | succ d ih =>
    intro s hloc hone hzero
    obtain ⟨loc, word, errors, mem, samples, log⟩ := s
    cases hloc
    have hb : hw.TRANSFERSTS samples = false := hzero 0 (Nat.succ_pos d)
    have hc : (hw.TRANSFERSTS samples != true) = true := by simp [hb]
    rw [mainRun_succ_left]
    simp only [mainStep, if_pos hc]
    have h := ih { loc := Loc.waitBegin, word := word, errors := errors, mem := mem,
                   samples := samples + 1,
                   log := log ++ [Event.sample (hw.TRANSFERSTS samples)] } rfl
      (by
        show hw.TRANSFERSTS (samples + 1 + d) = true
        rw [Nat.add_assoc, Nat.add_comm 1 d]
        exact hone)
      (by
        intro k hk
        show hw.TRANSFERSTS (samples + 1 + k) = false
        rw [Nat.add_assoc, Nat.add_comm 1 k]
        exact hzero (k + 1) (Nat.succ_lt_succ hk))
    refine ⟨h.1, ?_⟩
    rw [h.2]
    show samples + 1 + d + 1 = samples + (d + 1) + 1
    omega

theorem waitComplete_reach (hw : Hardware) (d : Nat) :
    ∀ s : State, s.loc = .waitComplete → hw.TRANSFERSTS (s.samples + d) = false →
      (∀ k, k < d → hw.TRANSFERSTS (s.samples + k) = true) →
      (mainRun hw (d + 1) s).loc = .verifyFinal ∧ (mainRun hw (d + 1) s).word = 0 ∧
        (mainRun hw (d + 1) s).samples = s.samples + d + 1 := by
  induction d with
  | zero =>
    intro s hloc hzero _
    obtain ⟨loc, word, errors, mem, samples, log⟩ := s
    cases hloc
    have hb : hw.TRANSFERSTS samples = false := hzero
    have hc : ¬ (hw.TRANSFERSTS samples != false) = true := by simp [hb]
    simp [mainRun, mainStep, hb]
  | succ d ih =>
    intro s hloc hzero hone
    obtain ⟨loc, word, errors, mem, samples, log⟩ := s
    cases hloc
    have hb : hw.TRANSFERSTS samples = true := hone 0 (Nat.succ_pos d)
    have hc : (hw.TRANSFERSTS samples != false) = true := by simp [hb]
    rw [mainRun_succ_left]
    simp only [mainStep, if_pos hc]
    have h := ih { loc := Loc.waitComplete, word := word, errors := errors, mem := mem,
                   samples := samples + 1,
                   log := log ++ [Event.sample (hw.TRANSFERSTS samples)] } rfl
      (by
        show hw.TRANSFERSTS (samples + 1 + d) = false
        rw [Nat.add_assoc, Nat.add_comm 1 d]
        exact hzero)
      (by
        intro k hk
        show hw.TRANSFERSTS (samples + 1 + k) = true
        rw [Nat.add_assoc, Nat.add_comm 1 k]
        exact hone (k + 1) (Nat.succ_lt_succ hk))
    refine ⟨h.1, h.2.1, ?_⟩
    rw [h.2.2]
    show samples + 1 + d + 1 = samples + (d + 1) + 1
    omega

theorem oneThenZero_of_waitFinishes {sts : Nat → Bool} (h : WaitFinishes sts) :
    ∃ a b, OneThenZero sts a b := by
  obtain ⟨i, j, hij, hi, hj⟩ := h
  have hex : ∃ a, sts a = true := ⟨i, hi⟩
  have hai : Nat.find hex ≤ i := Nat.find_min' hex hi
  have hex2 : ∃ b, Nat.find hex < b ∧ sts b = false := ⟨j, Nat.lt_of_le_of_lt hai hij, hj⟩
  refine ⟨Nat.find hex, Nat.find hex2, (Nat.find_spec hex2).1,
    ⟨Nat.find_spec hex, ?_, ?_⟩, (Nat.find_spec hex2).2⟩
  · intro k hk
    have := Nat.find_min hex hk
    simpa using this
  · intro k h1 h2
    have := Nat.find_min hex2 h2
    simp only [not_and] at this
    simpa using this h1

theorem waitFinishes_of_oneThenZero {sts : Nat → Bool} {a b : Nat} (h : OneThenZero sts a b) :
    WaitFinishes sts :=
  ⟨a, b, h.1, h.2.1.1, h.2.2⟩

/-! ## The course of an execution -/

theorem exec_add (hw : Hardware) (m0 : Memory) (garbage a b : Nat) :
    mainExec hw m0 garbage (a + b) = mainRun hw b (mainExec hw m0 garbage a) :=
  mainRun_add hw a b _

theorem exec_initialised (hw : Hardware) (m0 : Memory) (garbage : Nat) :
    mainExec hw m0 garbage BUFFER_WORDS =
      { loc := .initLoop, word := BUFFER_WORDS, errors := garbage
        mem := initMem m0 BUFFER_WORDS, samples := 0, log := initWrites BUFFER_WORDS } := by
  unfold mainExec
  rw [init_upto hw _ rfl rfl BUFFER_WORDS (Nat.le_refl _)]
  simp [mainStart]

theorem exec_verifyInitial (hw : Hardware) (m0 : Memory) (garbage : Nat) :
    mainExec hw m0 garbage (BUFFER_WORDS + 1) =
      { loc := .verifyInitial, word := 0, errors := 0, mem := memInitial hw m0, samples := 0
        log := initWrites BUFFER_WORDS } := by
  unfold mainExec
  rw [init_exit hw _ rfl rfl]
  simp [mainStart, memInitial]

theorem reach_forceTrigger (hw : Hardware) (m0 : Memory) (garbage : Nat) :
    ∃ n, (mainExec hw m0 garbage n).loc = .forceTrigger := by
  obtain ⟨k, _, hk, _⟩ := verify_leaves hw false (mainExec hw m0 garbage (BUFFER_WORDS + 1))
    (by rw [exec_verifyInitial]; rfl) (by rw [exec_verifyInitial])
  exact ⟨BUFFER_WORDS + 1 + (k + 1), by rw [exec_add]; exact hk⟩

theorem step_forceTrigger (hw : Hardware) (s : State) (h : s.loc = .forceTrigger) :
    mainStep hw s = { s with loc := .waitBegin, log := s.log ++ [Event.forcePerint] } := by
  obtain ⟨loc, word, errors, mem, samples, log⟩ := s
  cases h
  rfl

theorem step_waitBegin_log (hw : Hardware) (s : State) (h : s.loc = .waitBegin) :
    (mainStep hw s).log = s.log ++ [Event.sample (hw.TRANSFERSTS s.samples)] := by
  obtain ⟨loc, word, errors, mem, samples, log⟩ := s
  cases h
  simp only [mainStep]
  split <;> rfl

theorem reach_waitBegin (hw : Hardware) (m0 : Memory) (garbage : Nat) :
    ∃ n, (mainExec hw m0 garbage n).loc = .forceTrigger ∧
      (mainExec hw m0 garbage (n + 1)).loc = .waitBegin ∧
      (mainExec hw m0 garbage (n + 1)).samples = 0 ∧
      Event.forcePerint ∈ (mainExec hw m0 garbage (n + 1)).log := by
  obtain ⟨n, hn⟩ := reach_forceTrigger hw m0 garbage
  have hinv := inv_exec hw m0 garbage n
  obtain ⟨_, _, hloc⟩ := hinv
  rw [hn] at hloc
  have hstep : mainExec hw m0 garbage (n + 1) = mainStep hw (mainExec hw m0 garbage n) := rfl
  refine ⟨n, hn, ?_, ?_, ?_⟩
  · rw [hstep, step_forceTrigger hw _ hn]
  · rw [hstep, step_forceTrigger hw _ hn]
    exact hloc.2.1
  · rw [hstep, step_forceTrigger hw _ hn]
    simp

theorem reach_verifyFinal (hw : Hardware) (m0 : Memory) (garbage : Nat)
    (hfin : WaitFinishes hw.TRANSFERSTS) :
    ∃ n, (mainExec hw m0 garbage n).loc = .verifyFinal ∧ (mainExec hw m0 garbage n).word = 0 := by
  obtain ⟨a, b, hab, ⟨ha, hbefore, hbetween⟩, hb⟩ := oneThenZero_of_waitFinishes hfin
  obtain ⟨n, _, hloc, hsam, _⟩ := reach_waitBegin hw m0 garbage
  have h1 := waitBegin_reach hw a (mainExec hw m0 garbage (n + 1)) hloc
    (by rw [hsam, Nat.zero_add]; exact ha)
    (by intro k hk; rw [hsam, Nat.zero_add]; exact hbefore k hk)
  rw [← exec_add, hsam, Nat.zero_add] at h1
  obtain ⟨d, hd⟩ := Nat.exists_eq_add_of_le (Nat.succ_le_of_lt hab)
  have h2 := waitComplete_reach hw d (mainExec hw m0 garbage (n + 1 + (a + 1))) h1.1
    (by rw [h1.2, ← hd]; exact hb)
    (by
      intro k hk
      rw [h1.2]
      exact hbetween (a + 1 + k) (by omega) (by omega))
  rw [← exec_add] at h2
  exact ⟨_, h2.1, h2.2.1⟩

theorem reach_finalBranch (hw : Hardware) (m0 : Memory) (garbage : Nat)
    (hfin : WaitFinishes hw.TRANSFERSTS) :
    ∃ n, (mainExec hw m0 garbage n).loc = .finalBranch := by
  obtain ⟨n, hloc, hword⟩ := reach_verifyFinal hw m0 garbage hfin
  obtain ⟨k, _, hk, _⟩ := verify_leaves hw true (mainExec hw m0 garbage n) hloc hword
  exact ⟨n + (k + 1), by rw [exec_add]; exact hk⟩

theorem step_finalBranch (hw : Hardware) (s : State) (h : s.loc = .finalBranch) :
    mainStep hw s = { s with loc := if s.errors = 0 then .passed else .failed } := by
  obtain ⟨loc, word, errors, mem, samples, log⟩ := s
  cases h
  simp only [mainStep]
  split <;> rfl

theorem step_terminal (hw : Hardware) (s : State) (h : s.loc = .passed ∨ s.loc = .failed) :
    mainStep hw s = { s with loc := .returned, log := s.log ++ [Event.estop0] } := by
  obtain ⟨loc, word, errors, mem, samples, log⟩ := s
  rcases h with h | h <;> cases h <;> rfl

theorem step_returned (hw : Hardware) (s : State) (h : s.loc = .returned) :
    mainStep hw s = s := by
  obtain ⟨loc, word, errors, mem, samples, log⟩ := s
  cases h
  rfl

theorem run_returned (hw : Hardware) (s : State) (h : s.loc = .returned) (n : Nat) :
    mainRun hw n s = s := by
  induction n with
  | zero => rfl
  | succ n ih =>
    show mainStep hw (mainRun hw n s) = s
    rw [ih, step_returned hw s h]

/-- Past the wait, `main` reaches the terminal breakpoint selected by the
verdict of the two verifications. -/
theorem reach_terminal (hw : Hardware) (m0 : Memory) (garbage : Nat)
    (hfin : WaitFinishes hw.TRANSFERSTS) :
    ∃ n, (mainExec hw m0 garbage n).loc = .finalBranch ∧
      (mainExec hw m0 garbage (n + 1)).loc =
        (if InitialClean hw m0 ∧ FinalClean hw m0 then Loc.passed else Loc.failed) ∧
      (mainExec hw m0 garbage (n + 1)).errors = errorsFinal hw m0 := by
  obtain ⟨n, hn⟩ := reach_finalBranch hw m0 garbage hfin
  obtain ⟨_, _, hloc⟩ := inv_exec hw m0 garbage n
  rw [hn] at hloc
  have herr : (mainExec hw m0 garbage n).errors = errorsFinal hw m0 := hloc.2.1
  have hstep : mainExec hw m0 garbage (n + 1) = mainStep hw (mainExec hw m0 garbage n) := rfl
  refine ⟨n, hn, ?_, ?_⟩
  · rw [hstep, step_finalBranch hw _ hn]
    show (if (mainExec hw m0 garbage n).errors = 0 then Loc.passed else Loc.failed) = _
    rw [herr]
    by_cases h : InitialClean hw m0 ∧ FinalClean hw m0
    · rw [if_pos h, if_pos ((errorsFinal_eq_zero_iff hw m0).mpr h)]
    · rw [if_neg h, if_neg (fun h0 => h ((errorsFinal_eq_zero_iff hw m0).mp h0))]
  · rw [hstep, step_finalBranch hw _ hn]
    exact herr

/-! ## Faithful memory and a copying DMA -/

theorem initialClean_of_faithful (hw : Hardware) (m0 : Memory) (h : FaithfulMemory hw) :
    InitialClean hw m0 := by
  intro i hi hm
  have hr := h (initMem m0 BUFFER_WORDS) i hi
  have hinit := (initMem_src_dst m0 BUFFER_WORDS).1 i hi
  rcases hm with hm | hm
  · exact hm (hr.1.trans hinit.1)
  · exact hm (hr.2.trans hinit.2)

theorem finalClean_of_copies (hw : Hardware) (m0 : Memory) (h : FaithfulMemory hw)
    (hc : DmaCopies hw) : FinalClean hw m0 := by
  intro i hi hm
  have hr := h (initMem m0 BUFFER_WORDS) i hi
  have hinit := (initMem_src_dst m0 BUFFER_WORDS).1 i hi
  have ht := hc (memInitial hw m0) i hi
  have hsrc : (memInitial hw m0).srcBuffer i = i := hr.1.trans hinit.1
  rcases hm with hm | hm
  · exact hm (ht.1.trans hsrc)
  · exact hm (ht.2.trans hsrc)

theorem idealHardware_faithful : FaithfulMemory idealHardware :=
  fun _ _ _ => ⟨rfl, rfl⟩

theorem idealHardware_copies : DmaCopies idealHardware :=
  fun _ _ _ => ⟨rfl, rfl⟩

theorem idealHardware_finishes : WaitFinishes idealHardware.TRANSFERSTS :=
  ⟨0, 1, Nat.zero_lt_one, rfl, rfl⟩

/-! ## `errors` and the flow of control -/

theorem sameButErrors_verifyIteration (expected : Nat → Nat) (exit : Loc) (s t : State)
    (h : SameButErrors s t) :
    SameButErrors (verifyIteration expected exit s) (verifyIteration expected exit t) := by
  obtain ⟨loc, word, errors, mem, samples, log⟩ := s
  obtain ⟨loc', word', errors', mem', samples', log'⟩ := t
  obtain ⟨h1, h2, h3, h4, h5⟩ := h
  simp only at h1 h2 h3 h4 h5
  subst h1 h2 h3 h4 h5
  unfold verifyIteration
  simp only
  split
  · split
    · exact ⟨rfl, rfl, rfl, rfl, rfl⟩
    · split
      · exact ⟨rfl, rfl, rfl, rfl, rfl⟩
      · exact ⟨rfl, rfl, rfl, rfl, rfl⟩
  · exact ⟨rfl, rfl, rfl, rfl, rfl⟩

theorem sameButErrors_step (hw : Hardware) (s t : State) (h : SameButErrors s t)
    (hloc : s.loc ≠ .finalBranch) : SameButErrors (mainStep hw s) (mainStep hw t) := by
  by_cases hv : ∃ final, s.loc = verifyLoc final
  · obtain ⟨final, hf⟩ := hv
    rw [mainStep_verify hw final s hf, mainStep_verify hw final t (h.1 ▸ hf)]
    exact sameButErrors_verifyIteration _ _ s t h
  · obtain ⟨loc, word, errors, mem, samples, log⟩ := s
    obtain ⟨loc', word', errors', mem', samples', log'⟩ := t
    obtain ⟨h1, h2, h3, h4, h5⟩ := h
    simp only at h1 h2 h3 h4 h5 hloc
    subst h1 h2 h3 h4 h5
    cases loc with
    | verifyInitial => exact absurd ⟨false, rfl⟩ hv
    | verifyFinal => exact absurd ⟨true, rfl⟩ hv
    | finalBranch => exact absurd rfl hloc
    | initLoop =>
      simp only [mainStep]
      split <;> exact ⟨rfl, rfl, rfl, rfl, rfl⟩
    | waitBegin =>
      simp only [mainStep]
      split <;> exact ⟨rfl, rfl, rfl, rfl, rfl⟩
    | waitComplete =>
      simp only [mainStep]
      split <;> exact ⟨rfl, rfl, rfl, rfl, rfl⟩
    | forceTrigger => exact ⟨rfl, rfl, rfl, rfl, rfl⟩
    | passed => exact ⟨rfl, rfl, rfl, rfl, rfl⟩
    | failed => exact ⟨rfl, rfl, rfl, rfl, rfl⟩
    | returned => exact ⟨rfl, rfl, rfl, rfl, rfl⟩

/-! ## Bounds on the loops -/

theorem isLoop_cases {l : Loc} (h : l.isLoop = true) :
    l = .initLoop ∨ ∃ final, l = verifyLoc final := by
  cases l <;> simp [Loc.isLoop] at h
  · exact Or.inl rfl
  · exact Or.inr ⟨false, rfl⟩
  · exact Or.inr ⟨true, rfl⟩

theorem rank_verifyExit (final : Bool) : (verifyLoc final).rank < (verifyExit final).rank := by
  cases final <;> simp [verifyLoc, verifyExit, Loc.rank]

theorem loop_bound (hw : Hardware) (s : State) (hloop : s.loc.isLoop = true)
    (hword : s.word = 0) :
    ∃ k, k ≤ BUFFER_WORDS ∧
      (∀ j, j < k → (mainRun hw j s).loc = s.loc ∧ (mainRun hw j s).word = j) ∧
      ((mainRun hw k s).loc = s.loc → (mainRun hw k s).word = BUFFER_WORDS) ∧
      ∀ j, k < j → (mainRun hw j s).loc ≠ s.loc := by
  have hout : ∀ k, s.loc.rank < (mainRun hw (k + 1) s).loc.rank →
      ∀ j, k < j → (mainRun hw j s).loc ≠ s.loc := by
    intro k hk j hj heq
    have := rank_mono hw s (Nat.succ_le_of_lt hj)
    rw [heq] at this
    exact absurd hk (Nat.not_lt_of_le this)
  rcases isLoop_cases hloop with hinit | ⟨final, hver⟩
  · refine ⟨BUFFER_WORDS, Nat.le_refl _, ?_, ?_, hout _ ?_⟩
    · intro j hj
      rw [init_upto hw s hinit hword j (Nat.le_of_lt hj)]
      exact ⟨rfl, rfl⟩
    · intro _
      rw [init_upto hw s hinit hword _ (Nat.le_refl _)]
    · rw [init_exit hw s hinit hword, hinit]
      simp [Loc.rank]
  · by_cases hc : Clean (verifyExpected final) s.mem
    · refine ⟨BUFFER_WORDS, Nat.le_refl _, ?_, ?_, hout _ ?_⟩
      · intro j hj
        rw [verify_upto hw final s hver hword j (Nat.le_of_lt hj)
          (fun i hi => hc i (Nat.lt_trans hi hj))]
        exact ⟨rfl, rfl⟩
      · intro _
        rw [verify_upto hw final s hver hword _ (Nat.le_refl _) hc]
      · rw [verify_clean_exit hw final s hver hword hc, hver]
        exact rank_verifyExit final
    · obtain ⟨k, hk, hbad, hmin⟩ := exists_first_mismatch _ _ hc
      have hexit := verify_break_exit hw final s hver hword k hk hmin hbad
      refine ⟨k + 1, hk, ?_, ?_, hout _ ?_⟩
      · intro j hj
        have hjk : j ≤ k := Nat.lt_succ_iff.mp hj
        rw [verify_upto hw final s hver hword j (Nat.le_trans hjk (Nat.le_of_lt hk))
          (fun i hi => hmin i (Nat.lt_of_lt_of_le hi hjk))]
        exact ⟨rfl, rfl⟩
      · intro h
        rw [hexit, hver] at h
        exact absurd h (verifyExit_ne final)
      · have := rank_mono hw s (Nat.le_succ (k + 1))
        rw [hexit] at this
        rw [hver]
        exact Nat.lt_of_lt_of_le (rank_verifyExit final) this

theorem verifyIteration_reads (expected : Nat → Nat) (exit : Loc) (s : State) :
    (verifyIteration expected exit s).mem = s.mem ∧
      ∃ l, (verifyIteration expected exit s).log = s.log ++ l ∧
        ∀ e, e ∈ l → e.isWrite = false := by
  unfold verifyIteration
  split
  · split
    · refine ⟨rfl, _, rfl, ?_⟩
      intro e he
      simp at he
      rcases he with rfl | rfl <;> rfl
    · split
      · refine ⟨rfl, _, rfl, ?_⟩
        intro e he
        simp at he
        rcases he with rfl | rfl | rfl <;> rfl
      · refine ⟨rfl, _, rfl, ?_⟩
        intro e he
        simp at he
        rcases he with rfl | rfl <;> rfl
  · exact ⟨rfl, [], (List.append_nil _).symm, fun e he => absurd he (List.not_mem_nil e)⟩

theorem past_wait {hw : Hardware} {m0 : Memory} {s : State} (h : Inv hw m0 s)
    (hrank : Loc.verifyFinal.rank ≤ s.loc.rank) :
    s.mem = memFinal hw m0 ∧
      ∃ a b, OneThenZero hw.TRANSFERSTS a b ∧ s.samples = b + 1 := by
  obtain ⟨loc, word, errors, mem, samples, log⟩ := s
  obtain ⟨_, _, hloc⟩ := h
  cases loc with
  | initLoop => simp [Loc.rank] at hrank
  | verifyInitial => simp [Loc.rank] at hrank
  | forceTrigger => simp [Loc.rank] at hrank
  | waitBegin => simp [Loc.rank] at hrank
  | waitComplete => simp [Loc.rank] at hrank
  | verifyFinal => exact ⟨hloc.1, hloc.2.2.1⟩
  | finalBranch => exact ⟨hloc.1, hloc.2.2⟩
  | passed => exact ⟨hloc.1, hloc.2.2.1⟩
  | failed => exact ⟨hloc.1, hloc.2.2.1⟩
  | returned => exact ⟨hloc.1, hloc.2.2⟩

theorem after_branch {hw : Hardware} {m0 : Memory} {s : State} (h : Inv hw m0 s)
    (hrank : Loc.finalBranch.rank ≤ s.loc.rank) : s.errors = errorsFinal hw m0 := by
  obtain ⟨loc, word, errors, mem, samples, log⟩ := s
  obtain ⟨_, _, hloc⟩ := h
  cases loc with
  | initLoop => simp [Loc.rank] at hrank
  | verifyInitial => simp [Loc.rank] at hrank
  | forceTrigger => simp [Loc.rank] at hrank
  | waitBegin => simp [Loc.rank] at hrank
  | waitComplete => simp [Loc.rank] at hrank
  | verifyFinal => simp [Loc.rank] at hrank
  | finalBranch => exact hloc.2.1
  | passed => exact hloc.2.1
  | failed => exact hloc.2.1
  | returned => exact hloc.2.1

theorem never_past_wait (hw : Hardware) (m0 : Memory) (garbage : Nat)
    (h : ¬ WaitFinishes hw.TRANSFERSTS) (n : Nat) :
    (mainExec hw m0 garbage n).loc.rank < Loc.verifyFinal.rank := by
  by_contra hn
  obtain ⟨_, a, b, hab, _⟩ := past_wait (inv_exec hw m0 garbage n) (Nat.le_of_not_lt hn)
  exact h (waitFinishes_of_oneThenZero hab)

theorem breakReads_index (m : Memory) (k : Nat) :
    ∀ e, e ∈ breakReads m k → e.index? = some k ∨ e.index? = none := by
  intro e he
  unfold breakReads at he
  split at he
  · simp at he
    rcases he with rfl | rfl <;> simp [Event.index?]
  · simp at he
    rcases he with rfl | rfl | rfl <;> simp [Event.index?]

theorem verifyReads_index (k : Nat) :
    ∀ e, e ∈ verifyReads k → ∃ i, i < k ∧ e.index? = some i := by
  induction k with
  | zero =>
    intro e he
    simp [verifyReads] at he
  | succ k ih =>
    intro e he
    simp only [verifyReads, List.mem_append, List.mem_cons, List.mem_singleton,
      List.not_mem_nil, or_false] at he
    rcases he with he | rfl | rfl
    · obtain ⟨i, hi, h⟩ := ih e he
      exact ⟨i, Nat.lt_succ_of_lt hi, h⟩
    · exact ⟨k, Nat.lt_succ_self k, rfl⟩
    · exact ⟨k, Nat.lt_succ_self k, rfl⟩

/-! ## The claims -/

set_option maxRecDepth 1000000

/-- C1: soundness of PASS. Whatever the hardware made of the two buffers, if
`main` is at the PASS breakpoint then `errors` is 0, the buffers hold what they
held after the DMA wait, and on every index below `BUFFER_WORDS` the
destination equals the source, which equals the index. -/
theorem C1_pass_sound (hw : Hardware) (m0 : Memory) (garbage n : Nat)
    (hpass : (mainExec hw m0 garbage n).loc = Loc.passed) :
    (mainExec hw m0 garbage n).errors = 0 ∧
      (mainExec hw m0 garbage n).mem = memFinal hw m0 ∧
      ∀ i, i < BUFFER_WORDS →
        (mainExec hw m0 garbage n).mem.dstBuffer i = (mainExec hw m0 garbage n).mem.srcBuffer i ∧
        (mainExec hw m0 garbage n).mem.srcBuffer i = i := by
  obtain ⟨_, _, hloc⟩ := inv_exec hw m0 garbage n
  rw [hpass] at hloc
  obtain ⟨hmem, herr, _, h0⟩ := hloc
  have hclean := ((errorsFinal_eq_zero_iff hw m0).mp (herr ▸ h0)).2
  refine ⟨h0, hmem, ?_⟩
  intro i hi
  rw [hmem]
  have hsrc : (memFinal hw m0).srcBuffer i = i :=
    Classical.not_not.mp (fun h => hclean i hi (Or.inl h))
  have hdst : (memFinal hw m0).dstBuffer i = i :=
    Classical.not_not.mp (fun h => hclean i hi (Or.inr h))
  exact ⟨hdst.trans hsrc.symm, hsrc⟩

/-- C1 at ideal hardware: after 775 steps `main` is at the PASS breakpoint. -/
theorem C1_pass_sound_witness :
    (mainExec idealHardware zeroMemory 0 775).loc = Loc.passed ∧
      ((mainExec idealHardware zeroMemory 0 775).errors = 0 ∧
        (mainExec idealHardware zeroMemory 0 775).mem = memFinal idealHardware zeroMemory ∧
        ∀ i, i < BUFFER_WORDS →
          (mainExec idealHardware zeroMemory 0 775).mem.dstBuffer i =
            (mainExec idealHardware zeroMemory 0 775).mem.srcBuffer i ∧
          (mainExec idealHardware zeroMemory 0 775).mem.srcBuffer i = i) :=
  ⟨by rfl, C1_pass_sound idealHardware zeroMemory 0 775 (by rfl)⟩

/-- C2 as stated fails on the code: `missedHardware` has faithful memory and a
DMA transfer that copies the source into the destination, yet, its status bit
never being sampled at 1, `main` stays in the first wait loop (line 171) and
never reaches the PASS breakpoint. -/
theorem C2_counterexample :
    FaithfulMemory missedHardware ∧ DmaCopies missedHardware ∧
      ∀ n, (mainExec missedHardware zeroMemory 0 n).loc ≠ Loc.passed := by
  refine ⟨fun _ _ _ => ⟨rfl, rfl⟩, fun _ _ _ => ⟨rfl, rfl⟩, ?_⟩
  intro n hn
  have hnot : ¬ WaitFinishes missedHardware.TRANSFERSTS := by
    rintro ⟨i, j, _, hi, _⟩
    cases hi
  have hlt := never_past_wait missedHardware zeroMemory 0 hnot n
  rw [hn] at hlt
  exact absurd hlt (by decide)

/-- C2, amended: completeness of PASS. With faithful memory and a DMA transfer
that copies the `BUFFER_WORDS` words of the source into the destination and
leaves the source unchanged, `main` never reaches the FAIL breakpoint; and if
moreover the wait finishes (the samples of `TRANSFERSTS` show a 1 and later a
0), `main` reaches the PASS breakpoint with `errors` equal to 0. -/
theorem C2_pass_complete (hw : Hardware) (m0 : Memory) (garbage : Nat)
    (hfaith : FaithfulMemory hw) (hcopy : DmaCopies hw) :
    (∀ n, (mainExec hw m0 garbage n).loc ≠ Loc.failed) ∧
      (WaitFinishes hw.TRANSFERSTS →
        ∃ n, (mainExec hw m0 garbage n).loc = Loc.passed ∧
          (mainExec hw m0 garbage n).errors = 0) := by
  have hclean : InitialClean hw m0 ∧ FinalClean hw m0 :=
    ⟨initialClean_of_faithful hw m0 hfaith, finalClean_of_copies hw m0 hfaith hcopy⟩
  have hzero : errorsFinal hw m0 = 0 := (errorsFinal_eq_zero_iff hw m0).mpr hclean
  refine ⟨?_, ?_⟩
  · intro n hn
    obtain ⟨_, _, hloc⟩ := inv_exec hw m0 garbage n
    rw [hn] at hloc
    exact hloc.2.2.2 (hloc.2.1.trans hzero)
  · intro hfin
    obtain ⟨n, _, hloc, herr⟩ := reach_terminal hw m0 garbage hfin
    rw [if_pos hclean] at hloc
    exact ⟨n + 1, hloc, herr.trans hzero⟩

/-- C2 at ideal hardware, which is faithful, copies, and shows 1 then 0. -/
theorem C2_pass_complete_witness :
    FaithfulMemory idealHardware ∧ DmaCopies idealHardware ∧
      WaitFinishes idealHardware.TRANSFERSTS ∧
      (∀ n, (mainExec idealHardware zeroMemory 5 n).loc ≠ Loc.failed) ∧
      ∃ n, (mainExec idealHardware zeroMemory 5 n).loc = Loc.passed ∧
        (mainExec idealHardware zeroMemory 5 n).errors = 0 :=
  ⟨idealHardware_faithful, idealHardware_copies, idealHardware_finishes,
    (C2_pass_complete idealHardware zeroMemory 5 idealHardware_faithful idealHardware_copies).1,
    (C2_pass_complete idealHardware zeroMemory 5 idealHardware_faithful idealHardware_copies).2
      idealHardware_finishes⟩

/-- C3: in every run of `main` that gets past the DMA wait, the PASS breakpoint
is reached exactly when neither verification found a mismatch and the FAIL
breakpoint exactly when one of them did, so exactly one of the two is reached;
a mismatch in the initial verification gives FAIL whatever the final
verification finds. -/
theorem C3_exactly_one_breakpoint (hw : Hardware) (m0 : Memory) (garbage : Nat)
    (hpast : ∃ n, (mainExec hw m0 garbage n).loc = Loc.verifyFinal) :
    ((∃ n, (mainExec hw m0 garbage n).loc = Loc.passed) ↔
        (InitialClean hw m0 ∧ FinalClean hw m0)) ∧
      ((∃ n, (mainExec hw m0 garbage n).loc = Loc.failed) ↔
        ¬ (InitialClean hw m0 ∧ FinalClean hw m0)) ∧
      (¬ InitialClean hw m0 → ∃ n, (mainExec hw m0 garbage n).loc = Loc.failed) := by
  have hfin : WaitFinishes hw.TRANSFERSTS := by
    obtain ⟨n, hn⟩ := hpast
    obtain ⟨_, a, b, hab, _⟩ := past_wait (inv_exec hw m0 garbage n) (by rw [hn])
    exact waitFinishes_of_oneThenZero hab
  obtain ⟨t, _, hloc, _⟩ := reach_terminal hw m0 garbage hfin
  have hfailed : ¬ (InitialClean hw m0 ∧ FinalClean hw m0) →
      ∃ n, (mainExec hw m0 garbage n).loc = Loc.failed := by
    intro h
    rw [if_neg h] at hloc
    exact ⟨t + 1, hloc⟩
  refine ⟨⟨?_, ?_⟩, ⟨?_, hfailed⟩, fun h => hfailed (fun hc => h hc.1)⟩
  · rintro ⟨n, hn⟩
    obtain ⟨_, _, hinv⟩ := inv_exec hw m0 garbage n
    rw [hn] at hinv
    exact (errorsFinal_eq_zero_iff hw m0).mp (hinv.2.1 ▸ hinv.2.2.2)
  · intro h
    rw [if_pos h] at hloc
    exact ⟨t + 1, hloc⟩
  · rintro ⟨n, hn⟩ hc
    obtain ⟨_, _, hinv⟩ := inv_exec hw m0 garbage n
    rw [hn] at hinv
    exact hinv.2.2.2 (hinv.2.1.trans ((errorsFinal_eq_zero_iff hw m0).mpr hc))

/-- C3 at hardware on which the initial verification fails on word 3: `main` is
past the wait after 264 steps. -/
theorem C3_exactly_one_breakpoint_witness :
    (∃ n, (mainExec flakyHardware zeroMemory 0 n).loc = Loc.verifyFinal) ∧
      (((∃ n, (mainExec flakyHardware zeroMemory 0 n).loc = Loc.passed) ↔
          (InitialClean flakyHardware zeroMemory ∧ FinalClean flakyHardware zeroMemory)) ∧
        ((∃ n, (mainExec flakyHardware zeroMemory 0 n).loc = Loc.failed) ↔
          ¬ (InitialClean flakyHardware zeroMemory ∧ FinalClean flakyHardware zeroMemory)) ∧
        (¬ InitialClean flakyHardware zeroMemory →
          ∃ n, (mainExec flakyHardware zeroMemory 0 n).loc = Loc.failed)) :=
  ⟨⟨264, by rfl⟩, C3_exactly_one_breakpoint flakyHardware zeroMemory 0 ⟨264, by rfl⟩⟩

/-- C4: a verification loop entered with `word = 0` (the initial one for
`final = false`, the final one for `final = true`). If `k` is the smallest
mismatching index, the loop runs through the indices below `k` without touching
`errors`, and its next iteration adds exactly 1 to `errors` and leaves the loop
with `word = k`, having read no index above `k`; if no index mismatches, the
loop ends with `errors` unchanged. So after the final verification `errors` is
the number of verification phases that failed, which is at most 2. -/
theorem C4_errors_count_phases (hw : Hardware) :
    (∀ (final : Bool) (s : State), s.loc = verifyLoc final → s.word = 0 →
        s.errors + 1 < UINT16_RANGE →
        (∀ k, k < BUFFER_WORDS → Mismatch (verifyExpected final) s.mem k →
          (∀ i, i < k → ¬ Mismatch (verifyExpected final) s.mem i) →
          (∀ j, j ≤ k → mainRun hw j s = { s with word := j, log := s.log ++ verifyReads j }) ∧
          mainRun hw (k + 1) s =
            { s with loc := verifyExit final, word := k, errors := s.errors + 1
                     log := s.log ++ verifyReads k ++ breakReads s.mem k } ∧
          ∀ e, e ∈ verifyReads k ++ breakReads s.mem k →
            ∀ i, e.index? = some i → i ≤ k) ∧
        (Clean (verifyExpected final) s.mem →
          mainRun hw (BUFFER_WORDS + 1) s =
            { s with loc := verifyExit final, word := BUFFER_WORDS
                     log := s.log ++ verifyReads BUFFER_WORDS })) ∧
      ∀ (m0 : Memory) (garbage n : Nat),
        Loc.finalBranch.rank ≤ (mainExec hw m0 garbage n).loc.rank →
        (mainExec hw m0 garbage n).errors =
            (if InitialClean hw m0 then 0 else 1) + (if FinalClean hw m0 then 0 else 1) ∧
          (mainExec hw m0 garbage n).errors ≤ 2 := by
  refine ⟨?_, ?_⟩
  · intro final s hloc hword herr
    refine ⟨?_, verify_clean_exit hw final s hloc hword⟩
    intro k hk hbad hmin
    refine ⟨?_, ?_, ?_⟩
    · intro j hj
      exact verify_upto hw final s hloc hword j (Nat.le_trans hj (Nat.le_of_lt hk))
        (fun i hi => hmin i (Nat.lt_of_lt_of_le hi hj))
    · rw [verify_break_exit hw final s hloc hword k hk hmin hbad]
      have h16 : incr16 s.errors = s.errors + 1 := Nat.mod_eq_of_lt herr
      rw [h16]
    · intro e he i hi
      rcases List.mem_append.mp he with h | h
      · obtain ⟨i', hi', heq⟩ := verifyReads_index k e h
        rw [heq] at hi
        cases hi
        exact Nat.le_of_lt hi'
      · rcases breakReads_index s.mem k e h with heq | heq
        · rw [heq] at hi
          cases hi
          exact Nat.le_refl _
        · rw [heq] at hi
          cases hi
  · intro m0 garbage n hrank
    have herr := after_branch (inv_exec hw m0 garbage n) hrank
    exact ⟨herr, herr ▸ errorsFinal_le hw m0⟩

/-- C4 on `flakyEntry`, whose smallest mismatching index is 3: the fourth step
leaves the loop with `word = 3` and `errors = 1`, the dump of the reads
stopping at `dstBuffer[3]`. -/
theorem C4_errors_count_phases_witness :
    mainRun idealHardware 4 flakyEntry =
      { flakyEntry with
          loc := Loc.forceTrigger, word := 3, errors := 1
          log := [Event.readSrc 0, Event.readDst 0, Event.readSrc 1, Event.readDst 1,
                  Event.readSrc 2, Event.readDst 2, Event.readSrc 3, Event.readDst 3,
                  Event.estop0] } :=
  (((C4_errors_count_phases idealHardware).1 false flakyEntry rfl rfl (by decide)).1 3
    (by decide) (by decide) (by decide)).2.1

/-- C5: after the 256 iterations of the initialisation loop, whatever the
buffers held before, `srcBuffer[i] = i` and `dstBuffer[i] = 0` for every index
below `BUFFER_WORDS`; with faithful memory the initial verification then finds
no mismatch: it runs to `word = BUFFER_WORDS` and `main` arrives at the DMA
trigger with `errors = 0`. -/
theorem C5_buffers_initialised (hw : Hardware) (m0 : Memory) (garbage : Nat) :
    ((mainExec hw m0 garbage BUFFER_WORDS).loc = Loc.initLoop ∧
      (mainExec hw m0 garbage BUFFER_WORDS).word = BUFFER_WORDS ∧
      ∀ i, i < BUFFER_WORDS →
        (mainExec hw m0 garbage BUFFER_WORDS).mem.srcBuffer i = i ∧
        (mainExec hw m0 garbage BUFFER_WORDS).mem.dstBuffer i = 0) ∧
      (FaithfulMemory hw →
        InitialClean hw m0 ∧
        (mainExec hw m0 garbage (BUFFER_WORDS + 1 + (BUFFER_WORDS + 1))).loc = Loc.forceTrigger ∧
        (mainExec hw m0 garbage (BUFFER_WORDS + 1 + (BUFFER_WORDS + 1))).word = BUFFER_WORDS ∧
        (mainExec hw m0 garbage (BUFFER_WORDS + 1 + (BUFFER_WORDS + 1))).errors = 0) := by
  refine ⟨?_, ?_⟩
  · rw [exec_initialised]
    exact ⟨rfl, rfl, (initMem_src_dst m0 BUFFER_WORDS).1⟩
  · intro hfaith
    have hclean := initialClean_of_faithful hw m0 hfaith
    refine ⟨hclean, ?_⟩
    rw [exec_add, exec_verifyInitial]
    rw [verify_clean_exit hw false
      { loc := Loc.verifyInitial, word := 0, errors := 0, mem := memInitial hw m0, samples := 0
        log := initWrites BUFFER_WORDS } rfl rfl hclean]
    exact ⟨rfl, rfl, rfl⟩

/-- C5 on ideal hardware, whose memory is faithful, from arrays full of zeros. -/
theorem C5_buffers_initialised_witness :
    FaithfulMemory idealHardware ∧
      (mainExec idealHardware zeroMemory 9 514).loc = Loc.forceTrigger ∧
      (mainExec idealHardware zeroMemory 9 514).word = BUFFER_WORDS ∧
      (mainExec idealHardware zeroMemory 9 514).errors = 0 :=
  ⟨idealHardware_faithful,
    ((C5_buffers_initialised idealHardware zeroMemory 9).2 idealHardware_faithful).2⟩

/-- C6: the burst size programmed is 31 and the transfer size programmed is
`BUFFER_WORDS/32 - 1 = 7`; `(31 + 1) * (7 + 1)` is `BUFFER_WORDS`, and the
division `BUFFER_WORDS/32` loses no remainder. -/
theorem C6_dma_moves_whole_buffer :
    CH1.bsize = 31 ∧ CH1.tsize = 7 ∧ (CH1.bsize + 1) * (CH1.tsize + 1) = BUFFER_WORDS ∧
      BUFFER_WORDS % 32 = 0 ∧ 32 * (BUFFER_WORDS / 32) = BUFFER_WORDS := by
  decide

/-- C7 as stated fails on the code: on ideal hardware `main` is at the PASS
breakpoint after 775 steps and has returned after 776, so it does not loop
after the breakpoint; and on hardware whose status bit is never seen at 1 the
post-transfer verification is never run. -/
theorem C7_counterexample :
    ((mainExec idealHardware zeroMemory 0 775).loc = Loc.passed ∧
        (mainExec idealHardware zeroMemory 0 776).loc = Loc.returned) ∧
      ∀ n, (mainExec missedHardware zeroMemory 0 n).loc ≠ Loc.verifyFinal := by
  refine ⟨⟨by rfl, by rfl⟩, ?_⟩
  intro n hn
  have hnot : ¬ WaitFinishes missedHardware.TRANSFERSTS := by
    rintro ⟨i, j, _, hi, _⟩
    cases hi
  have := never_past_wait missedHardware zeroMemory 0 hnot n
  rw [hn] at this
  exact absurd this (Nat.lt_irrefl _)

/-- C7, amended: `errors` influences control only at the final branch (a step
from any other control point does the same to everything but `errors`
whatever `errors` holds); in every execution the DMA trigger is forced and the
status bit is then polled; in every execution in which the wait finishes the
post-transfer verification is entered at `word = 0`, also after a mismatch in
the initial verification; and one step after the terminal breakpoint `main`
has returned and stays so. -/
theorem C7_errors_only_at_final_branch (hw : Hardware) (m0 : Memory) (garbage : Nat) :
    (∀ s t : State, SameButErrors s t → s.loc ≠ Loc.finalBranch →
        SameButErrors (mainStep hw s) (mainStep hw t)) ∧
      (∃ n, (mainExec hw m0 garbage n).loc = Loc.forceTrigger ∧
        (mainExec hw m0 garbage (n + 1)).loc = Loc.waitBegin ∧
        Event.forcePerint ∈ (mainExec hw m0 garbage (n + 1)).log ∧
        Event.sample (hw.TRANSFERSTS 0) ∈ (mainExec hw m0 garbage (n + 2)).log) ∧
      (WaitFinishes hw.TRANSFERSTS →
        (∃ n, (mainExec hw m0 garbage n).loc = Loc.verifyFinal ∧
          (mainExec hw m0 garbage n).word = 0) ∧
        ∃ n, ((mainExec hw m0 garbage n).loc = Loc.passed ∨
            (mainExec hw m0 garbage n).loc = Loc.failed) ∧
          ∀ k, n < k → (mainExec hw m0 garbage k).loc = Loc.returned) := by
  refine ⟨sameButErrors_step hw, ?_, ?_⟩
  · obtain ⟨n, hn, hloc, hsam, hlog⟩ := reach_waitBegin hw m0 garbage
    refine ⟨n, hn, hloc, hlog, ?_⟩
    have hstep : mainExec hw m0 garbage (n + 2) = mainStep hw (mainExec hw m0 garbage (n + 1)) :=
      rfl
    rw [hstep, step_waitBegin_log hw _ hloc, hsam]
    simp
  · intro hfin
    refine ⟨reach_verifyFinal hw m0 garbage hfin, ?_⟩
    obtain ⟨n, _, hloc, _⟩ := reach_terminal hw m0 garbage hfin
    have hterm : (mainExec hw m0 garbage (n + 1)).loc = Loc.passed ∨
        (mainExec hw m0 garbage (n + 1)).loc = Loc.failed := by
      rw [hloc]
      split
      · exact Or.inl rfl
      · exact Or.inr rfl
    refine ⟨n + 1, hterm, ?_⟩
    intro k hk
    obtain ⟨d, rfl⟩ := Nat.exists_eq_add_of_le (Nat.succ_le_of_lt hk)
    have hret : (mainExec hw m0 garbage (n + 1 + 1)).loc = Loc.returned := by
      show (mainStep hw (mainExec hw m0 garbage (n + 1))).loc = Loc.returned
      rw [step_terminal hw _ hterm]
    show (mainExec hw m0 garbage (n + 1 + 1 + d)).loc = Loc.returned
    rw [exec_add, run_returned hw _ hret d, hret]

/-- C7 on hardware on which the initial verification fails on word 3 and the
wait finishes: the post-transfer verification is entered all the same and
`main` returns after its terminal breakpoint. -/
theorem C7_errors_only_at_final_branch_witness :
    WaitFinishes flakyHardware.TRANSFERSTS ∧
      ((∃ n, (mainExec flakyHardware zeroMemory 0 n).loc = Loc.verifyFinal ∧
          (mainExec flakyHardware zeroMemory 0 n).word = 0) ∧
        ∃ n, ((mainExec flakyHardware zeroMemory 0 n).loc = Loc.passed ∨
            (mainExec flakyHardware zeroMemory 0 n).loc = Loc.failed) ∧
          ∀ k, n < k → (mainExec flakyHardware zeroMemory 0 k).loc = Loc.returned) :=
  ⟨⟨0, 1, Nat.zero_lt_one, rfl, rfl⟩,
    (C7_errors_only_at_final_branch flakyHardware zeroMemory 0).2.2
      ⟨0, 1, Nat.zero_lt_one, rfl, rfl⟩⟩

/-- C8: the wait has no timeout. `main` gets to the post-transfer verification
exactly when the samples of `TRANSFERSTS` contain a 1 followed later by a 0;
when it does, the samples read are those up to the first 0 after the first 1;
when the samples never show 1, or show no 0 after their first 1, `main` stays
before the post-transfer verification for ever. -/
theorem C8_wait_without_timeout (hw : Hardware) (m0 : Memory) (garbage : Nat) :
    ((∃ n, (mainExec hw m0 garbage n).loc = Loc.verifyFinal) ↔
        WaitFinishes hw.TRANSFERSTS) ∧
      (∀ n, Loc.verifyFinal.rank ≤ (mainExec hw m0 garbage n).loc.rank →
        ∃ a b, OneThenZero hw.TRANSFERSTS a b ∧ (mainExec hw m0 garbage n).samples = b + 1) ∧
      ((∀ k, hw.TRANSFERSTS k = false) →
        ∀ n, (mainExec hw m0 garbage n).loc.rank < Loc.verifyFinal.rank) ∧
      (∀ a, NoOneBefore hw.TRANSFERSTS a → (∀ k, a ≤ k → hw.TRANSFERSTS k = true) →
        ∀ n, (mainExec hw m0 garbage n).loc.rank < Loc.verifyFinal.rank) := by
  refine ⟨⟨?_, ?_⟩, ?_, ?_, ?_⟩
  · rintro ⟨n, hn⟩
    obtain ⟨_, a, b, hab, _⟩ := past_wait (inv_exec hw m0 garbage n) (by rw [hn])
    exact waitFinishes_of_oneThenZero hab
  · intro hfin
    obtain ⟨n, hn, _⟩ := reach_verifyFinal hw m0 garbage hfin
    exact ⟨n, hn⟩
  · intro n hn
    exact (past_wait (inv_exec hw m0 garbage n) hn).2
  · intro hzero
    refine never_past_wait hw m0 garbage ?_
    rintro ⟨i, _, _, hi, _⟩
    rw [hzero i] at hi
    cases hi
  · intro a hbefore hafter
    refine never_past_wait hw m0 garbage ?_
    rintro ⟨i, j, hij, hi, hj⟩
    have hai : a ≤ i := by
      by_contra h
      rw [hbefore i (Nat.lt_of_not_le h)] at hi
      cases hi
    rw [hafter j (Nat.le_trans hai (Nat.le_of_lt hij))] at hj
    cases hj

/-- C8 on hardware whose status bit is never seen at 1: `main` never gets to
the post-transfer verification. -/
theorem C8_wait_without_timeout_witness :
    (∀ k, missedHardware.TRANSFERSTS k = false) ∧
      ∀ n, (mainExec missedHardware zeroMemory 0 n).loc.rank < Loc.verifyFinal.rank :=
  ⟨fun _ => rfl, (C8_wait_without_timeout missedHardware zeroMemory 0).2.2.1 (fun _ => rfl)⟩

/-- C9: under the modelled address generation, channel 1 as configured makes
`8 * 16` accesses, at the word offsets 0, 2, ..., 254 of the source and at the
same offsets of the destination; the words they cover are 0, 1, ..., 255, each
once, all inside the `BUFFER_WORDS`-word buffers. -/
theorem C9_dma_covers_buffers :
    CH1.accessesPerBurst = 16 ∧ CH1.tsize + 1 = 8 ∧
      CH1.srcOffsets = (List.range 128).map (fun k => 2 * k) ∧
      CH1.dstOffsets = CH1.srcOffsets ∧
      CH1.wordsOf CH1.srcOffsets = List.range BUFFER_WORDS ∧
      CH1.wordsOf CH1.dstOffsets = List.range BUFFER_WORDS ∧
      (CH1.wordsOf CH1.srcOffsets).Nodup ∧
      ∀ w, w ∈ CH1.wordsOf CH1.srcOffsets → w < BUFFER_WORDS := by
  have hsrc : CH1.wordsOf CH1.srcOffsets = List.range BUFFER_WORDS := by rfl
  refine ⟨by rfl, by rfl, by rfl, by rfl, hsrc, by rfl, ?_, ?_⟩
  · rw [hsrc]
    exact List.nodup_range _
  · intro w hw
    rw [hsrc] at hw
    exact List.mem_range.mp hw

/-- C10: the loops over `word` are safe and terminate. In every execution
`word` stays in `0..BUFFER_WORDS`, so its increment never wraps, and every
array access logged has its index below `BUFFER_WORDS`. A loop entered with
`word = 0` makes some `k ≤ BUFFER_WORDS` iterations, the `j`-th with
`word = j`, is left after them and not entered again. A step of a
verification loop leaves both arrays as they are and logs no write. -/
theorem C10_loops_safe (hw : Hardware) :
    (∀ (m0 : Memory) (garbage n : Nat),
        (mainExec hw m0 garbage n).word ≤ BUFFER_WORDS ∧
        incr16 (mainExec hw m0 garbage n).word = (mainExec hw m0 garbage n).word + 1 ∧
        LogInBounds (mainExec hw m0 garbage n).log) ∧
      (∀ s : State, s.loc.isLoop = true → s.word = 0 →
        ∃ k, k ≤ BUFFER_WORDS ∧
          (∀ j, j < k → (mainRun hw j s).loc = s.loc ∧ (mainRun hw j s).word = j) ∧
          ((mainRun hw k s).loc = s.loc → (mainRun hw k s).word = BUFFER_WORDS) ∧
          ∀ j, k < j → (mainRun hw j s).loc ≠ s.loc) ∧
      ∀ (final : Bool) (s : State), s.loc = verifyLoc final →
        (mainStep hw s).mem = s.mem ∧
        ∃ l, (mainStep hw s).log = s.log ++ l ∧ ∀ e, e ∈ l → e.isWrite = false := by
  refine ⟨?_, loop_bound hw, ?_⟩
  · intro m0 garbage n
    obtain ⟨hword, hlog, _⟩ := inv_exec hw m0 garbage n
    exact ⟨hword, incr16_of_le hword, hlog⟩
  · intro final s hloc
    rw [mainStep_verify hw final s hloc]
    exact verifyIteration_reads _ _ s

/-- C10 on the initial verification loop entered on `flakyEntry`. -/
theorem C10_loops_safe_witness :
    flakyEntry.loc.isLoop = true ∧ flakyEntry.word = 0 ∧
      ∃ k, k ≤ BUFFER_WORDS ∧
        (∀ j, j < k → (mainRun idealHardware j flakyEntry).loc = flakyEntry.loc ∧
          (mainRun idealHardware j flakyEntry).word = j) ∧
        ((mainRun idealHardware k flakyEntry).loc = flakyEntry.loc →
          (mainRun idealHardware k flakyEntry).word = BUFFER_WORDS) ∧
        ∀ j, k < j → (mainRun idealHardware j flakyEntry).loc ≠ flakyEntry.loc :=
  ⟨rfl, rfl, (C10_loops_safe idealHardware).2.1 flakyEntry rfl rfl⟩

end EmifDcDma
